import Mathlib

/-!
Verification of the segment-building, comment-parsing, ledger and artifact
logic of the py-youtube-tool repository, via a shallow embedding of the
relevant Python functions into Lean.

Strings are modelled as lists of characters (`Str`); Python `str.lower`,
`str.strip`, substring tests and tuple comparison are modelled on that
representation.
-/

/-- Python strings are modelled as lists of characters. -/
abbrev Str := List Char

/-- A comment reference: `(offset_seconds, label)`, as in the Python tuples
produced by `CommentParser.extract_timestamps`. -/
abbrev Ref := Nat × Str

/-- A segment: `(start_time, end_time, description)`, as returned by
`CommentParser.find_continuous_segments`. -/
abbrev Seg := Nat × Nat × Str

/-- Model of Python `str.lower()` (ASCII case folding, as `Char.toLower`). -/
def strLower (s : Str) : Str := s.map Char.toLower

/-- Whitespace characters recognised by Python `str.strip()` / regex `\s`
(ASCII range). -/
def isWsChar (c : Char) : Bool :=
  c == ' ' || c == '\t' || c == '\n' || c == '\r' || c.toNat == 11 || c.toNat == 12

/-- Model of Python `str.strip()`. -/
def strTrim (s : Str) : Str :=
  ((s.dropWhile isWsChar).reverse.dropWhile isWsChar).reverse

/-- Model of the Python substring test `needle in hay`. -/
def containsSub (hay needle : Str) : Bool :=
  hay.tails.any (fun t => needle.isPrefixOf t)

/-! ## `CommentParser.find_continuous_segments` (src/src/utils/comment_parser.py, lines 41-90) -/

/-- `timestamps[i][0]` with the out-of-range default 0 (all uses are in range). -/
def offAt (ts : List Ref) (i : Nat) : Nat := (ts.getD i (0, [])).1

/-- `timestamps[i][1]` with the out-of-range default `[]`. -/
def descAt (ts : List Ref) (i : Nat) : Str := (ts.getD i (0, [])).2

/-- The keyword test of lines 51-57: the lower-cased description must contain
some include keyword (include keywords are used verbatim, line 54) and must
contain no cleaned exclude keyword (line 56). -/
def refSelected (keywords cleanedExclude : List Str) (r : Ref) : Bool :=
  let dl := strLower r.2
  keywords.any (fun k => containsSub dl k) &&
    !(cleanedExclude.any (fun k => containsSub dl k))

/-- The cleanup of the exclude keywords, line 48: `k.strip().lower()`. -/
def cleanExclude (exclude : List Str) : List Str :=
  exclude.map (fun k => strLower (strTrim k))

/-- `matched_indices` of lines 44-57: the indices of the references selected
by the keyword filters, in ascending order. -/
def matchedIndices (ts : List Ref) (keywords exclude : List Str) : List Nat :=
  (List.range ts.length).filter
    (fun i => refSelected keywords (cleanExclude exclude) (ts.getD i (0, [])))

/-- End time of the final segment, lines 81-86: the offset of the reference
after `last_idx`, or `+ 60` when `last_idx` is the last reference. -/
def lastEnd (ts : List Ref) (lastIdx : Nat) : Nat :=
  if lastIdx < ts.length - 1 then offAt ts (lastIdx + 1) else offAt ts lastIdx + 60

/-- The loop of lines 62-88 over the matched indices, carrying
`current_start_time` and `current_desc`; the final element is handled by the
append of line 88. -/
def segLoop (ts : List Ref) : Nat → Str → List Nat → List Seg
  | _, _, [] => []
  | curStart, _, [lastIdx] => [(curStart, lastEnd ts lastIdx, descAt ts lastIdx)]
  | curStart, curDesc, curIdx :: nextIdx :: rest =>
      if nextIdx - curIdx > 1 then
        (curStart, offAt ts (curIdx + 1), curDesc) ::
          segLoop ts (offAt ts nextIdx) (descAt ts nextIdx) (nextIdx :: rest)
      else
        segLoop ts curStart curDesc (nextIdx :: rest)

/-- `CommentParser.find_continuous_segments` (lines 41-90). -/
def find_continuous_segments (ts : List Ref) (keywords exclude : List Str) : List Seg :=
  match matchedIndices ts keywords exclude with
  | [] => []
  | m0 :: ms => segLoop ts (offAt ts m0) (descAt ts m0) (m0 :: ms)

/-! ## `CommentParser.extract_timestamps` (lines 20-38)

The regex `t=(\d+)"[^>]*>([^<]+)</a>\s*([^<]*(?:<br>)?)` is deterministic:
every quantified sub-pattern is over a character class that excludes the
character the following literal starts with (or is followed only by nullable
parts), so the greedy match never backtracks. The scan below implements this
leftmost, non-overlapping matching exactly. -/

/-- Digit string to number, as Python `int`. -/
def digitsToNat (ds : Str) : Nat := ds.foldl (fun n c => n * 10 + (c.toNat - 48)) 0

/-- Model of Python `str.replace("<br>", "")`. -/
def removeBr : Str → Str
  | [] => []
  | '<' :: 'b' :: 'r' :: '>' :: rest => removeBr rest
  | c :: rest => c :: removeBr rest

/-- Lines 31-35: clean the matched description; fall back to the clock string
when the cleaned description is empty. -/
def cleanDesc (timeStr g3 : Str) : Str :=
  let d := strTrim (removeBr g3)
  if d.isEmpty then strTrim timeStr else d

/-- Attempt to match the timestamp regex anchored at the start of `s`.
Returns `(seconds, time_str, raw description, rest of the text)` on success. -/
def tryMatch (s : Str) : Option (Nat × Str × Str × Str) :=
  match s with
  | 't' :: '=' :: r1 =>
    let ds := r1.takeWhile Char.isDigit
    let r2 := r1.dropWhile Char.isDigit
    if ds.isEmpty then none else
    match r2 with
    | '"' :: r3 =>
      let r4 := r3.dropWhile (fun c => c != '>')
      match r4 with
      | '>' :: r5 =>
        let g2 := r5.takeWhile (fun c => c != '<')
        let r6 := r5.dropWhile (fun c => c != '<')
        if g2.isEmpty then none else
        match r6 with
        | '<' :: '/' :: 'a' :: '>' :: r7 =>
          let r8 := r7.dropWhile isWsChar
          let g3 := r8.takeWhile (fun c => c != '<')
          let r9 := r8.dropWhile (fun c => c != '<')
          match r9 with
          | '<' :: 'b' :: 'r' :: '>' :: r10 =>
              some (digitsToNat ds, g2, g3 ++ ['<', 'b', 'r', '>'], r10)
          | _ => some (digitsToNat ds, g2, g3, r9)
        | _ => none
      | _ => none
    | _ => none
  | _ => none

/-- The scan of `re.finditer` over one comment text: try the pattern at each
position, restart after the end of each (non-empty) match. The fuel argument
starts at the text length, which bounds the number of scan steps since every
step consumes at least one character. -/
def scanAux : Nat → Str → List (Nat × Str)
  | 0, _ => []
  | _, [] => []
  | Nat.succ fuel, c :: cs =>
    match tryMatch (c :: cs) with
    | some (sec, timeStr, g3, rest) => (sec, cleanDesc timeStr g3) :: scanAux fuel rest
    | none => scanAux fuel cs

/-- All matches of the timestamp pattern in one comment text, in scan order. -/
def scanComment (text : Str) : List (Nat × Str) := scanAux text.length text

/-- The `timestamps` list of lines 22-36 before sorting: matches of all
comments, in comment order and scan order. -/
def rawTimestamps (comments : List Str) : List (Nat × Str) :=
  (comments.map scanComment).flatten

/-- Python string comparison (lexicographic by code point). -/
def strLeB : Str → Str → Bool
  | [], _ => true
  | _ :: _, [] => false
  | a :: s, b :: t =>
    if a.toNat < b.toNat then true
    else if b.toNat < a.toNat then false
    else strLeB s t

/-- Python tuple comparison on `(int, str)` pairs, as used by `sorted`. -/
def pairLe (x y : Nat × Str) : Bool :=
  x.1 < y.1 || (x.1 == y.1 && strLeB x.2 y.2)

/-- Stable insertion of `x` after every element `≤ x`. -/
def insertPair (x : Nat × Str) : List (Nat × Str) → List (Nat × Str)
  | [] => [x]
  | y :: ys => if pairLe y x then y :: insertPair x ys else x :: y :: ys

/-- Model of Python `sorted` on `(int, str)` tuples: a stable sort by the
tuple order `pairLe`. -/
def pySorted (l : List (Nat × Str)) : List (Nat × Str) :=
  l.foldl (fun acc x => insertPair x acc) []

/-- `CommentParser.extract_timestamps` (lines 20-38): scan every comment text,
then `sorted(timestamps)`. Comments are modelled by their `text` field. -/
def extract_timestamps (comments : List Str) : List (Nat × Str) :=
  pySorted (rawTimestamps comments)

example : find_continuous_segments
    [(10, ("intro").toList), (70, ("asmr tapping").toList), (130, ("asmr tapping").toList),
     (300, ("talk").toList), (600, ("asmr brushing").toList)]
    [("asmr").toList] [] =
    [(70, 300, ("asmr tapping").toList), (600, 660, ("asmr brushing").toList)] := by decide

example : find_continuous_segments
    [(10, ("intro").toList), (70, ("asmr tapping").toList), (130, ("asmr tapping").toList),
     (300, ("talk").toList), (600, ("asmr brushing").toList)]
    [("asmr").toList] [("tapping").toList] =
    [(600, 660, ("asmr brushing").toList)] := by decide

/-! ## Structural facts about the embedding -/

/-- Input references sorted ascending by offset (duplicates allowed). -/
def offsetsAscending (ts : List Ref) : Prop :=
  List.Pairwise (fun a b : Ref => a.1 ≤ b.1) ts

/-- Input references sorted strictly ascending by offset. -/
def offsetsStrictAscending (ts : List Ref) : Prop :=
  List.Pairwise (fun a b : Ref => a.1 < b.1) ts

instance (ts : List Ref) : Decidable (offsetsAscending ts) := by
  unfold offsetsAscending; infer_instance

instance (ts : List Ref) : Decidable (offsetsStrictAscending ts) := by
  unfold offsetsStrictAscending; infer_instance

lemma offAt_le_offAt {ts : List Ref} (asc : offsetsAscending ts) {i j : Nat}
    (hij : i ≤ j) (hj : j < ts.length) : offAt ts i ≤ offAt ts j := by
  rcases Nat.lt_or_ge i j with hlt | hge
  · have hi : i < ts.length := Nat.lt_trans hlt hj
    have h := (List.pairwise_iff_getElem.mp asc) i j hi hj hlt
    unfold offAt
    rw [List.getD_eq_getElem _ _ hi, List.getD_eq_getElem _ _ hj]
    exact h
  · have : i = j := Nat.le_antisymm hij hge
    simp [this]

lemma offAt_lt_offAt {ts : List Ref} (asc : offsetsStrictAscending ts) {i j : Nat}
    (hij : i < j) (hj : j < ts.length) : offAt ts i < offAt ts j := by
  have hi : i < ts.length := Nat.lt_trans hij hj
  have h := (List.pairwise_iff_getElem.mp asc) i j hi hj hij
  unfold offAt
  rw [List.getD_eq_getElem _ _ hi, List.getD_eq_getElem _ _ hj]
  exact h

lemma offAt_le_of_strict {ts : List Ref} (asc : offsetsStrictAscending ts) {i j : Nat}
    (hij : i ≤ j) (hj : j < ts.length) : offAt ts i ≤ offAt ts j := by
  rcases Nat.lt_or_ge i j with hlt | hge
  · exact Nat.le_of_lt (offAt_lt_offAt asc hlt hj)
  · have : i = j := Nat.le_antisymm hij hge
    simp [this]

lemma matchedIndices_lt {ts : List Ref} {kw ex : List Str} :
    ∀ i ∈ matchedIndices ts kw ex, i < ts.length := by
  intro i hi
  have := (List.mem_filter.mp hi).1
  exact List.mem_range.mp this

lemma matchedIndices_pairwise {ts : List Ref} {kw ex : List Str} :
    List.Pairwise (· < ·) (matchedIndices ts kw ex) :=
  (List.pairwise_lt_range ts.length).filter _

lemma segLoop_ne_nil (ts : List Ref) :
    ∀ (m : List Nat) (cS : Nat) (cD : Str), m ≠ [] → segLoop ts cS cD m ≠ [] := by
  intro m
  induction m with
  | nil => intro cS cD h; exact absurd rfl h
  | cons a tail ih =>
    intro cS cD _
    cases tail with
    | nil => simp [segLoop]
    | cons b rest =>
      by_cases hgap : b - a > 1
      · simp [segLoop, hgap]
      · simpa [segLoop, hgap] using ih cS cD (by simp)

lemma segLoop_head (ts : List Ref) :
    ∀ (m : List Nat) (cS : Nat) (cD : Str), m ≠ [] →
      ∃ e d tl, segLoop ts cS cD m = (cS, e, d) :: tl := by
  intro m
  induction m with
  | nil => intro cS cD h; exact absurd rfl h
  | cons a tail ih =>
    intro cS cD _
    cases tail with
    | nil => exact ⟨lastEnd ts a, descAt ts a, [], by simp [segLoop]⟩
    | cons b rest =>
      by_cases hgap : b - a > 1
      · exact ⟨offAt ts (a + 1), cD,
          segLoop ts (offAt ts b) (descAt ts b) (b :: rest), by simp [segLoop, hgap]⟩
      · obtain ⟨e, d, tl, h⟩ := ih cS cD (by simp)
        exact ⟨e, d, tl, by simpa [segLoop, hgap] using h⟩

lemma segLoop_getLast (ts : List Ref) :
    ∀ (m : List Nat) (cS : Nat) (cD : Str), m ≠ [] →
      ∃ st, (segLoop ts cS cD m).getLast? =
        some (st, lastEnd ts (m.getLastD 0), descAt ts (m.getLastD 0)) := by
  intro m
  induction m with
  | nil => intro cS cD h; exact absurd rfl h
  | cons a tail ih =>
    intro cS cD _
    cases tail with
    | nil => exact ⟨cS, by simp [segLoop]⟩
    | cons b rest =>
      have hlast : (a :: b :: rest).getLastD 0 = (b :: rest).getLastD 0 := by
        simp [List.getLastD_cons]
      by_cases hgap : b - a > 1
      · obtain ⟨st, h⟩ := ih (offAt ts b) (descAt ts b) (by simp)
        refine ⟨st, ?_⟩
        have hne := segLoop_ne_nil ts (b :: rest) (offAt ts b) (descAt ts b) (by simp)
        obtain ⟨c, l', hcl⟩ := List.exists_cons_of_ne_nil hne
        rw [hlast]
        simp only [segLoop, hgap, if_pos]
        rw [hcl] at h ⊢
        simpa [List.getLast?_cons_cons, List.getLastD_cons] using h
      · obtain ⟨st, h⟩ := ih cS cD (by simp)
        refine ⟨st, ?_⟩
        rw [hlast]
        simpa [segLoop, hgap, List.getLastD_cons] using h

lemma segLoop_start_le_end {ts : List Ref} (asc : offsetsAscending ts) :
    ∀ (m : List Nat) (s0 : Nat) (cD : Str), s0 < ts.length →
      (∀ x ∈ m, s0 ≤ x) → (∀ x ∈ m, x < ts.length) → List.Pairwise (· < ·) m →
      ∀ s ∈ segLoop ts (offAt ts s0) cD m, s.1 ≤ s.2.1 := by
  intro m
  induction m with
  | nil => intro s0 cD _ _ _ _ s hs; simp [segLoop] at hs
  | cons a tail ih =>
    intro s0 cD hs0 hlb hub hpw s hs
    cases tail with
    | nil =>
      simp [segLoop] at hs
      subst hs
      have ha : a < ts.length := hub a (by simp)
      have hsa : s0 ≤ a := hlb a (by simp)
      simp only [lastEnd]
      split
      · rename_i hcase
        exact offAt_le_offAt asc (Nat.le_succ_of_le hsa) (by omega)
      · exact Nat.le_trans (offAt_le_offAt asc hsa ha) (Nat.le_add_right _ 60)
    | cons b rest =>
      have hab : a < b := List.rel_of_pairwise_cons hpw (by simp)
      have hbl : b < ts.length := hub b (by simp)
      have hpw' : List.Pairwise (· < ·) (b :: rest) := hpw.of_cons
      by_cases hgap : b - a > 1
      · simp only [segLoop, hgap, if_pos] at hs
        rcases List.mem_cons.mp hs with hs | hs
        · subst hs
          have hsa : s0 ≤ a := hlb a (by simp)
          exact offAt_le_offAt asc (Nat.le_succ_of_le hsa) (by omega)
        · refine ih b (descAt ts b) hbl ?_ ?_ hpw' s hs
          · intro x hx
            rcases List.mem_cons.mp hx with h | h
            · omega
            · exact Nat.le_of_lt (List.rel_of_pairwise_cons hpw' h)
          · intro x hx
            exact hub x (List.mem_cons_of_mem a hx)
      · simp only [segLoop, hgap, if_neg, not_false_iff] at hs
        refine ih s0 cD hs0 ?_ ?_ hpw' s hs
        · intro x hx; exact hlb x (List.mem_cons_of_mem a hx)
        · intro x hx; exact hub x (List.mem_cons_of_mem a hx)

lemma segLoop_start_lt_end {ts : List Ref} (asc : offsetsStrictAscending ts) :
    ∀ (m : List Nat) (s0 : Nat) (cD : Str), s0 < ts.length →
      (∀ x ∈ m, s0 ≤ x) → (∀ x ∈ m, x < ts.length) → List.Pairwise (· < ·) m →
      ∀ s ∈ segLoop ts (offAt ts s0) cD m, s.1 < s.2.1 := by
  intro m
  induction m with
  | nil => intro s0 cD _ _ _ _ s hs; simp [segLoop] at hs
  | cons a tail ih =>
    intro s0 cD hs0 hlb hub hpw s hs
    cases tail with
    | nil =>
      simp [segLoop] at hs
      subst hs
      have ha : a < ts.length := hub a (by simp)
      have hsa : s0 ≤ a := hlb a (by simp)
      simp only [lastEnd]
      split
      · rename_i hcase
        exact offAt_lt_offAt asc (by omega) (by omega)
      · exact Nat.lt_of_le_of_lt (offAt_le_of_strict asc hsa ha) (by omega)
    | cons b rest =>
      have hab : a < b := List.rel_of_pairwise_cons hpw (by simp)
      have hbl : b < ts.length := hub b (by simp)
      have hpw' : List.Pairwise (· < ·) (b :: rest) := hpw.of_cons
      by_cases hgap : b - a > 1
      · simp only [segLoop, hgap, if_pos] at hs
        rcases List.mem_cons.mp hs with hs | hs
        · subst hs
          have hsa : s0 ≤ a := hlb a (by simp)
          exact offAt_lt_offAt asc (by omega) (by omega)
        · refine ih b (descAt ts b) hbl ?_ ?_ hpw' s hs
          · intro x hx
            rcases List.mem_cons.mp hx with h | h
            · omega
            · exact Nat.le_of_lt (List.rel_of_pairwise_cons hpw' h)
          · intro x hx
            exact hub x (List.mem_cons_of_mem a hx)
      · simp only [segLoop, hgap, if_neg, not_false_iff] at hs
        refine ih s0 cD hs0 ?_ ?_ hpw' s hs
        · intro x hx; exact hlb x (List.mem_cons_of_mem a hx)
        · intro x hx; exact hub x (List.mem_cons_of_mem a hx)

lemma segLoop_chain {ts : List Ref} (asc : offsetsAscending ts) :
    ∀ (m : List Nat) (cS : Nat) (cD : Str),
      (∀ x ∈ m, x < ts.length) → List.Pairwise (· < ·) m →
      List.Chain' (fun u v : Seg => u.2.1 ≤ v.1) (segLoop ts cS cD m) := by
  intro m
  induction m with
  | nil => intro cS cD _ _; simp [segLoop]
  | cons a tail ih =>
    intro cS cD hub hpw
    cases tail with
    | nil => simp [segLoop]
    | cons b rest =>
      have hab : a < b := List.rel_of_pairwise_cons hpw (by simp)
      have hbl : b < ts.length := hub b (by simp)
      have hpw' : List.Pairwise (· < ·) (b :: rest) := hpw.of_cons
      have hub' : ∀ x ∈ b :: rest, x < ts.length := by
        intro x hx; exact hub x (List.mem_cons_of_mem a hx)
      by_cases hgap : b - a > 1
      · simp only [segLoop, hgap, if_pos]
        refine List.chain'_cons'.mpr ⟨?_, ih (offAt ts b) (descAt ts b) hub' hpw'⟩
        intro y hy
        obtain ⟨e, d, tl, hh⟩ := segLoop_head ts (b :: rest) (offAt ts b) (descAt ts b) (by simp)
        rw [hh] at hy
        simp at hy
        subst hy
        exact offAt_le_offAt asc (by omega) hbl
      · simpa [segLoop, hgap] using ih cS cD hub' hpw'

lemma chain_overlap_to_pairwise :
    ∀ (l : List Seg), (∀ s ∈ l, s.1 ≤ s.2.1) →
      List.Chain' (fun u v : Seg => u.2.1 ≤ v.1) l →
      List.Pairwise (fun u v : Seg => u.1 ≤ v.1 ∧ u.2.1 ≤ v.1) l := by
  intro l
  induction l with
  | nil => intro _ _; exact List.Pairwise.nil
  | cons x t ih =>
    intro hpt hch
    cases t with
    | nil => simp
    | cons y t' =>
      have hxy : x.2.1 ≤ y.1 := (List.chain'_cons'.mp hch).1 y rfl
      have hch' : List.Chain' (fun u v : Seg => u.2.1 ≤ v.1) (y :: t') :=
        (List.chain'_cons'.mp hch).2
      have hpt' : ∀ s ∈ y :: t', s.1 ≤ s.2.1 := by
        intro s hs; exact hpt s (List.mem_cons_of_mem x hs)
      have hrest := ih hpt' hch'
      refine List.pairwise_cons.mpr ⟨?_, hrest⟩
      intro z hz
      have hxse : x.1 ≤ x.2.1 := hpt x (by simp)
      rcases List.mem_cons.mp hz with h | h
      · subst h
        exact ⟨Nat.le_trans hxse hxy, hxy⟩
      · have hyz := List.rel_of_pairwise_cons hrest h
        exact ⟨Nat.le_trans hxse (Nat.le_trans hxy hyz.1),
               Nat.le_trans hxy hyz.1⟩

lemma find_continuous_segments_mem_invariants {ts : List Ref} {kw ex : List Str} :
    find_continuous_segments ts kw ex = [] ∨
      ∃ m0 ms, matchedIndices ts kw ex = m0 :: ms ∧
        find_continuous_segments ts kw ex =
          segLoop ts (offAt ts m0) (descAt ts m0) (m0 :: ms) := by
  unfold find_continuous_segments
  cases h : matchedIndices ts kw ex with
  | nil => exact Or.inl rfl
  | cons m0 ms => exact Or.inr ⟨m0, ms, rfl, rfl⟩

lemma matched_invariants {ts : List Ref} {kw ex : List Str} {m0 : Nat} {ms : List Nat}
    (h : matchedIndices ts kw ex = m0 :: ms) :
    m0 < ts.length ∧ (∀ x ∈ m0 :: ms, m0 ≤ x) ∧ (∀ x ∈ m0 :: ms, x < ts.length) ∧
      List.Pairwise (· < ·) (m0 :: ms) := by
  have hpw : List.Pairwise (· < ·) (m0 :: ms) := h ▸ matchedIndices_pairwise
  have hub : ∀ x ∈ m0 :: ms, x < ts.length := by
    intro x hx
    exact matchedIndices_lt x (h ▸ hx)
  refine ⟨hub m0 (by simp), ?_, hub, hpw⟩
  intro x hx
  rcases List.mem_cons.mp hx with h' | h'
  · omega
  · exact Nat.le_of_lt (List.rel_of_pairwise_cons hpw h')

/-! ## Claims C1 and C2 -/

/-- The duplicate-offset input that refutes C1. -/
def tsDup : List Ref := [(10, ("asmr").toList), (10, ("b").toList)]

/-- Scenario A of the spec, reused for witnesses. -/
def tsA : List Ref :=
  [(10, ("intro").toList), (70, ("asmr tapping").toList), (130, ("asmr tapping").toList),
   (300, ("talk").toList), (600, ("asmr brushing").toList)]

/-- The include keyword list of scenario A. -/
def kwA : List Str := [("asmr").toList]

/-- Claim C1, counterexample: on the ascending input `[(10,"asmr"),(10,"b")]`
(consecutive references with an identical offset) the single produced segment
is `(10, 10, "asmr")`, whose start is not strictly below its end, so the
claimed invariant `start_seconds < end_seconds` fails. -/
theorem c1_counterexample :
    offsetsAscending tsDup ∧
      find_continuous_segments tsDup [("asmr").toList] [] = [(10, 10, ("asmr").toList)] ∧
      ¬ (∀ s ∈ find_continuous_segments tsDup [("asmr").toList] [], s.1 < s.2.1) := by
  refine ⟨by decide, by decide, ?_⟩
  intro h
  exact absurd (h (10, 10, ("asmr").toList) (by decide)) (by decide)

/-- Claim C1, amended: for ascending input every produced segment satisfies
`start_seconds ≤ end_seconds`; the strict inequality `start_seconds <
end_seconds` holds whenever the input offsets are strictly increasing, but
consecutive references sharing an identical offset can yield a degenerate
segment with `start = end`. -/
theorem c1_segment_start_le_end (ts : List Ref) (kw ex : List Str) :
    (offsetsAscending ts → ∀ s ∈ find_continuous_segments ts kw ex, s.1 ≤ s.2.1) ∧
    (offsetsStrictAscending ts → ∀ s ∈ find_continuous_segments ts kw ex, s.1 < s.2.1) := by
  rcases @find_continuous_segments_mem_invariants ts kw ex with
    hnil | ⟨m0, ms, hm, hout⟩
  · rw [hnil]
    exact ⟨fun _ s hs => absurd hs (by simp), fun _ s hs => absurd hs (by simp)⟩
  · obtain ⟨hm0, hlb, hub, hpw⟩ := matched_invariants hm
    constructor
    · intro asc s hs
      rw [hout] at hs
      exact segLoop_start_le_end asc (m0 :: ms) m0 (descAt ts m0) hm0 hlb hub hpw s hs
    · intro asc s hs
      rw [hout] at hs
      exact segLoop_start_lt_end asc (m0 :: ms) m0 (descAt ts m0) hm0 hlb hub hpw s hs

/-- Witness for the amended C1 at scenario A. -/
theorem c1_segment_start_le_end_witness :
    offsetsStrictAscending tsA ∧
      ((70, 300, ("asmr tapping").toList) : Seg).1 <
        ((70, 300, ("asmr tapping").toList) : Seg).2.1 :=
  ⟨by decide,
   (c1_segment_start_le_end tsA kwA []).2 (by decide)
     (70, 300, ("asmr tapping").toList) (by decide)⟩

/-- Claim C2: for input sorted ascending by offset, the output of
`find_continuous_segments` is time-ascending and pairwise non-overlapping:
for any two segments in output order, the earlier one's start is at most the
later one's start, and the earlier one's end is at most the later one's
start. -/
theorem c2_segments_ascending_nonoverlapping (ts : List Ref) (kw ex : List Str)
    (asc : offsetsAscending ts) :
    List.Pairwise (fun u v : Seg => u.1 ≤ v.1 ∧ u.2.1 ≤ v.1)
      (find_continuous_segments ts kw ex) := by
  rcases @find_continuous_segments_mem_invariants ts kw ex with
    hnil | ⟨m0, ms, hm, hout⟩
  · rw [hnil]; exact List.Pairwise.nil
  · obtain ⟨hm0, hlb, hub, hpw⟩ := matched_invariants hm
    rw [hout]
    refine chain_overlap_to_pairwise _ ?_ ?_
    · exact segLoop_start_le_end asc (m0 :: ms) m0 (descAt ts m0) hm0 hlb hub hpw
    · exact segLoop_chain asc (m0 :: ms) (offAt ts m0) (descAt ts m0) hub hpw

/-- Witness for C2 at scenario A. -/
theorem c2_segments_ascending_nonoverlapping_witness :
    offsetsAscending tsA ∧
      List.Pairwise (fun u v : Seg => u.1 ≤ v.1 ∧ u.2.1 ≤ v.1)
        (find_continuous_segments tsA kwA []) :=
  ⟨by decide, c2_segments_ascending_nonoverlapping tsA kwA [] (by decide)⟩

/-! ## Run decomposition of the matched indices (for C3, C4, C5)

The loop of lines 62-88 groups the matched indices into maximal runs of
consecutive indices (adjacent in the full reference list); each run yields
one output segment. -/

/-- Split a list of matched indices into maximal runs of consecutive indices
(index difference exactly 1 within a run). -/
def splitRuns : List Nat → List (List Nat)
  | [] => []
  | [a] => [[a]]
  | a :: b :: rest =>
    match splitRuns (b :: rest) with
    | [] => [[a]]
    | r :: rs => if b - a > 1 then [a] :: r :: rs else (a :: r) :: rs

/-- Rebuild the segments from the runs, starting with `current_start_time =
cS` and `current_desc = cD`: every run except the last yields an interior
segment ending at the offset after the run's last index; the last run yields
the final segment with the `lastEnd` end time and the last index's label. -/
def buildSegsWith (ts : List Ref) : Nat → Str → List (List Nat) → List Seg
  | _, _, [] => []
  | cS, _, [r] => [(cS, lastEnd ts (r.getLastD 0), descAt ts (r.getLastD 0))]
  | cS, cD, r :: r' :: rs =>
      (cS, offAt ts (r.getLastD 0 + 1), cD) ::
        buildSegsWith ts (offAt ts (r'.headD 0)) (descAt ts (r'.headD 0)) (r' :: rs)

lemma splitRuns_ne_nil : ∀ (m : List Nat), m ≠ [] → splitRuns m ≠ [] := by
  intro m hm
  cases m with
  | nil => exact absurd rfl hm
  | cons a tail =>
    cases tail with
    | nil => simp [splitRuns]
    | cons b rest =>
      simp only [splitRuns]
      cases h : splitRuns (b :: rest) with
      | nil => simp
      | cons r rs =>
        by_cases hgap : b - a > 1 <;> simp [hgap]

lemma splitRuns_nil_not_mem : ∀ (m : List Nat), [] ∉ splitRuns m := by
  intro m
  induction m with
  | nil => simp [splitRuns]
  | cons a tail ih =>
    cases tail with
    | nil => simp [splitRuns]
    | cons b rest =>
      simp only [splitRuns]
      cases h : splitRuns (b :: rest) with
      | nil => simp
      | cons r rs =>
        rw [h] at ih
        by_cases hgap : b - a > 1
        · simp only [hgap, if_pos]
          intro hmem
          rcases List.mem_cons.mp hmem with h' | h'
          · exact absurd h'.symm (by simp)
          · exact ih h'
        · simp only [hgap, if_neg, not_false_iff]
          intro hmem
          rcases List.mem_cons.mp hmem with h' | h'
          · exact absurd h'.symm (by simp)
          · exact ih (List.mem_cons_of_mem r h')

lemma splitRuns_head_head : ∀ (a : Nat) (tail : List Nat),
    ((splitRuns (a :: tail)).headD []).headD 0 = a := by
  intro a tail
  cases tail with
  | nil => simp [splitRuns]
  | cons b rest =>
    simp only [splitRuns]
    cases h : splitRuns (b :: rest) with
    | nil => simp
    | cons r rs =>
      by_cases hgap : b - a > 1 <;> simp [hgap]

lemma splitRuns_flatten : ∀ (m : List Nat), (splitRuns m).flatten = m := by
  intro m
  induction m with
  | nil => simp [splitRuns]
  | cons a tail ih =>
    cases tail with
    | nil => simp [splitRuns]
    | cons b rest =>
      simp only [splitRuns]
      cases h : splitRuns (b :: rest) with
      | nil => exact absurd h (splitRuns_ne_nil _ (by simp))
      | cons r rs =>
        rw [h] at ih
        by_cases hgap : b - a > 1
        · simp only [hgap, if_pos]
          simpa using ih
        · simp only [hgap, if_neg, not_false_iff]
          simpa using ih

/-- The loop of lines 62-88 equals the run-by-run reconstruction. -/
lemma segLoop_eq_buildSegs (ts : List Ref) :
    ∀ (m : List Nat) (cS : Nat) (cD : Str), m ≠ [] →
      segLoop ts cS cD m = buildSegsWith ts cS cD (splitRuns m) := by
  intro m
  induction m with
  | nil => intro cS cD h; exact absurd rfl h
  | cons a tail ih =>
    intro cS cD _
    cases tail with
    | nil => simp [segLoop, splitRuns, buildSegsWith]
    | cons b rest =>
      cases h : splitRuns (b :: rest) with
      | nil => exact absurd h (splitRuns_ne_nil _ (by simp))
      | cons r rs =>
        have hrhead : r.headD 0 = b := by
          have := splitRuns_head_head b rest
          rw [h] at this
          simpa using this
        have hrne : r ≠ [] := by
          intro hr
          exact splitRuns_nil_not_mem (b :: rest) (by rw [h, hr]; simp)
        by_cases hgap : b - a > 1
        · simp only [segLoop, hgap, if_pos, splitRuns, h]
          rw [ih (offAt ts b) (descAt ts b) (by simp), h]
          simp only [buildSegsWith]
          rw [hrhead]
          simp [List.getLastD_cons, List.getLastD_nil]
        · simp only [segLoop, hgap, if_neg, not_false_iff, splitRuns, h]
          rw [ih cS cD (by simp), h]
          obtain ⟨c, r', hr⟩ := List.exists_cons_of_ne_nil hrne
          subst hr
          cases rs with
          | nil => simp [buildSegsWith, List.getLastD_cons]
          | cons s rs' => simp [buildSegsWith, List.getLastD_cons]

lemma buildSegsWith_length (ts : List Ref) :
    ∀ (rs : List (List Nat)) (cS : Nat) (cD : Str),
      (buildSegsWith ts cS cD rs).length = rs.length := by
  intro rs
  induction rs with
  | nil => intro cS cD; simp [buildSegsWith]
  | cons r tail ih =>
    intro cS cD
    cases tail with
    | nil => simp [buildSegsWith]
    | cons r' rs' => simp [buildSegsWith, ih]

/-! ## Claim C3: end time of the last segment -/

/-- Claim C3: with at least one selected reference, the last produced segment
ends at the offset of the reference immediately following the last selected
index, or at that reference's offset plus 60 when the last selected reference
is the final element of the full list. -/
theorem c3_last_segment_end (ts : List Ref) (kw ex : List Str)
    (asc : offsetsAscending ts) (hne : matchedIndices ts kw ex ≠ []) :
    ((find_continuous_segments ts kw ex).getLast?).map (fun s : Seg => s.2.1) =
      some (if (matchedIndices ts kw ex).getLastD 0 < ts.length - 1
            then offAt ts ((matchedIndices ts kw ex).getLastD 0 + 1)
            else offAt ts ((matchedIndices ts kw ex).getLastD 0) + 60) := by
  rcases @find_continuous_segments_mem_invariants ts kw ex with
    hnil | ⟨m0, ms, hm, hout⟩
  · unfold find_continuous_segments at hnil
    cases h : matchedIndices ts kw ex with
    | nil => exact absurd h hne
    | cons m0 ms =>
      rw [h] at hnil
      exact absurd hnil (segLoop_ne_nil ts (m0 :: ms) (offAt ts m0) (descAt ts m0) (by simp))
  · obtain ⟨st, hlastq⟩ :=
      segLoop_getLast ts (m0 :: ms) (offAt ts m0) (descAt ts m0) (by simp)
    rw [hout, hlastq, hm]
    simp [lastEnd]

/-- Witness for C3 at scenario A: the last selected reference (index 4) is
the final reference, so the last segment ends at `600 + 60`. -/
theorem c3_last_segment_end_witness :
    offsetsAscending tsA ∧ matchedIndices tsA kwA [] ≠ [] ∧
      ((find_continuous_segments tsA kwA []).getLast?).map (fun s : Seg => s.2.1) =
        some (if (matchedIndices tsA kwA []).getLastD 0 < tsA.length - 1
              then offAt tsA ((matchedIndices tsA kwA []).getLastD 0 + 1)
              else offAt tsA ((matchedIndices tsA kwA []).getLastD 0) + 60) :=
  ⟨by decide, by decide, c3_last_segment_end tsA kwA [] (by decide) (by decide)⟩

/-! ## Claim C4: adjacency merging and gap splitting -/

/-- Number of gaps (index difference above 1) between adjacent entries. -/
def gapCount (m : List Nat) : Nat :=
  (m.zip m.tail).countP (fun p => decide (p.2 - p.1 > 1))

/-- The index, in the output segment list, of the segment that contains the
`k`-th selected reference: the number of gaps among the first `k` adjacent
pairs of selected references. -/
def segOfSel (m : List Nat) (k : Nat) : Nat := gapCount (m.take (k + 1))

lemma gapCount_cons_cons (a b : Nat) (t : List Nat) :
    gapCount (a :: b :: t) = gapCount (b :: t) + (if b - a > 1 then 1 else 0) := by
  simp [gapCount, List.countP_cons]

lemma splitRuns_length : ∀ (m : List Nat), m ≠ [] →
    (splitRuns m).length = gapCount m + 1 := by
  intro m
  induction m with
  | nil => intro h; exact absurd rfl h
  | cons a tail ih =>
    intro _
    cases tail with
    | nil => simp [splitRuns, gapCount]
    | cons b rest =>
      simp only [splitRuns]
      cases h : splitRuns (b :: rest) with
      | nil => exact absurd h (splitRuns_ne_nil _ (by simp))
      | cons r rs =>
        have ihs := ih (by simp)
        rw [h] at ihs
        rw [gapCount_cons_cons]
        by_cases hgap : b - a > 1
        · simp only [hgap, if_pos]
          simp only [List.length_cons] at ihs ⊢
          omega
        · simp only [hgap, if_neg, not_false_iff]
          simp only [List.length_cons] at ihs ⊢
          omega

lemma segOfSel_succ : ∀ (m : List Nat) (k : Nat), k + 1 < m.length →
    segOfSel m (k + 1) =
      segOfSel m k + (if m.getD (k + 1) 0 - m.getD k 0 > 1 then 1 else 0) := by
  intro m
  induction m with
  | nil => intro k hk; simp at hk
  | cons a tail ih =>
    intro k hk
    cases tail with
    | nil => simp at hk
    | cons b rest =>
      cases k with
      | zero =>
        simp [segOfSel, gapCount, List.countP_cons, Nat.add_comm]
      | succ k' =>
        have hk' : k' + 1 < (b :: rest).length := by
          simpa using Nat.lt_of_succ_lt_succ hk
        have ihs := ih k' hk'
        have h1 : (a :: b :: rest).take (k' + 1 + 1 + 1) =
            a :: (b :: rest).take (k' + 1 + 1) := rfl
        have h2 : (a :: b :: rest).take (k' + 1 + 1) =
            a :: (b :: rest).take (k' + 1) := rfl
        have h3 : (b :: rest).take (k' + 1 + 1) = b :: rest.take (k' + 1) := rfl
        have h4 : (b :: rest).take (k' + 1) = b :: rest.take k' := rfl
        simp only [segOfSel] at ihs ⊢
        rw [h1, h2, h3, h4, gapCount_cons_cons, gapCount_cons_cons, ← h4, ← h3, ihs]
        simp only [List.getD_cons_succ]
        omega

lemma mem_splitRuns_getD : ∀ (m : List Nat) (k : Nat), k < m.length →
    m.getD k 0 ∈ (splitRuns m).getD (segOfSel m k) [] := by
  intro m
  induction m with
  | nil => intro k hk; simp at hk
  | cons a tail ih =>
    intro k hk
    cases tail with
    | nil =>
      cases k with
      | zero => simp [splitRuns, segOfSel, gapCount]
      | succ k' => simp at hk
    | cons b rest =>
      simp only [splitRuns]
      cases h : splitRuns (b :: rest) with
      | nil => exact absurd h (splitRuns_ne_nil _ (by simp))
      | cons r rs =>
        cases k with
        | zero =>
          have hs0 : segOfSel (a :: b :: rest) 0 = 0 := by
            simp [segOfSel, gapCount]
          rw [hs0]
          by_cases hgap : b - a > 1 <;> simp [hgap]
        | succ k' =>
          have hk' : k' < (b :: rest).length := by
            simpa using Nat.lt_of_succ_lt_succ hk
          have ihs := ih k' hk'
          rw [h] at ihs
          have hgd : (a :: b :: rest).getD (k' + 1) 0 = (b :: rest).getD k' 0 :=
            List.getD_cons_succ
          have hseg : segOfSel (a :: b :: rest) (k' + 1) =
              segOfSel (b :: rest) k' + (if b - a > 1 then 1 else 0) := by
            have h2 : (a :: b :: rest).take (k' + 1 + 1) =
                a :: (b :: rest).take (k' + 1) := rfl
            have h4 : (b :: rest).take (k' + 1) = b :: rest.take k' := rfl
            simp only [segOfSel]
            rw [h2, h4, gapCount_cons_cons, ← h4]
          rw [hgd, hseg]
          by_cases hgap : b - a > 1
          · simp only [hgap, if_pos]
            simpa [List.getD_cons_succ] using ihs
          · simp only [hgap, if_neg, not_false_iff, Nat.add_zero]
            cases hj : segOfSel (b :: rest) k' with
            | zero =>
              rw [hj] at ihs
              simp only [List.getD_cons_zero] at ihs ⊢
              exact List.mem_cons_of_mem a ihs
            | succ j' =>
              rw [hj] at ihs
              simpa using ihs

lemma find_continuous_segments_eq_segLoop (ts : List Ref) (kw ex : List Str)
    (m0 : Nat) (ms : List Nat) (h : matchedIndices ts kw ex = m0 :: ms) :
    find_continuous_segments ts kw ex =
      segLoop ts (offAt ts m0) (descAt ts m0) (m0 :: ms) := by
  unfold find_continuous_segments
  cases h' : matchedIndices ts kw ex with
  | nil => rw [h'] at h; exact absurd h (by simp)
  | cons a l =>
    rw [h'] at h
    obtain ⟨h1, h2⟩ := List.cons.inj h
    subst h1
    subst h2
    rfl

lemma find_continuous_segments_eq_build (ts : List Ref) (kw ex : List Str)
    (m0 : Nat) (ms : List Nat) (h : matchedIndices ts kw ex = m0 :: ms) :
    find_continuous_segments ts kw ex =
      buildSegsWith ts (offAt ts m0) (descAt ts m0) (splitRuns (m0 :: ms)) := by
  rw [find_continuous_segments_eq_segLoop ts kw ex m0 ms h]
  exact segLoop_eq_buildSegs ts (m0 :: ms) _ _ (by simp)

/-- Claim C4: two selected references at consecutive selected positions whose
indices in the full reference list differ by exactly 1 land in the same
output segment; an index difference of 2 or more puts them in consecutive
distinct segments. `segOfSel` is the segment index of a selected position:
each selected reference is a member of the corresponding run, and the runs
correspond 1-1 to the output segments of `find_continuous_segments`. -/
theorem c4_adjacent_merge_gap_split (ts : List Ref) (kw ex : List Str) (k : Nat)
    (hk : k + 1 < (matchedIndices ts kw ex).length) :
    ((matchedIndices ts kw ex).getD (k + 1) 0 - (matchedIndices ts kw ex).getD k 0 = 1 →
       segOfSel (matchedIndices ts kw ex) (k + 1) = segOfSel (matchedIndices ts kw ex) k) ∧
    (2 ≤ (matchedIndices ts kw ex).getD (k + 1) 0 - (matchedIndices ts kw ex).getD k 0 →
       segOfSel (matchedIndices ts kw ex) (k + 1) = segOfSel (matchedIndices ts kw ex) k + 1) ∧
    (matchedIndices ts kw ex).getD k 0 ∈
      (splitRuns (matchedIndices ts kw ex)).getD (segOfSel (matchedIndices ts kw ex) k) [] ∧
    (matchedIndices ts kw ex).getD (k + 1) 0 ∈
      (splitRuns (matchedIndices ts kw ex)).getD (segOfSel (matchedIndices ts kw ex) (k + 1)) [] ∧
    (find_continuous_segments ts kw ex).length = (splitRuns (matchedIndices ts kw ex)).length := by
  have hsucc := segOfSel_succ (matchedIndices ts kw ex) k hk
  refine ⟨?_, ?_, ?_, ?_, ?_⟩
  · intro hdiff
    rw [hdiff] at hsucc
    simpa using hsucc
  · intro hdiff
    have : (matchedIndices ts kw ex).getD (k + 1) 0 -
        (matchedIndices ts kw ex).getD k 0 > 1 := by omega
    rw [if_pos this] at hsucc
    exact hsucc
  · exact mem_splitRuns_getD _ k (Nat.lt_of_succ_lt hk)
  · exact mem_splitRuns_getD _ (k + 1) hk
  · cases h : matchedIndices ts kw ex with
    | nil => rw [h] at hk; simp at hk
    | cons m0 ms =>
      rw [find_continuous_segments_eq_build ts kw ex m0 ms h]
      exact buildSegsWith_length ts _ _ _

/-- Witness for C4 at scenario A: the matched indices are `[1, 2, 4]`;
positions 1 and 2 have index difference 2 and land in different segments. -/
theorem c4_adjacent_merge_gap_split_witness :
    1 + 1 < (matchedIndices tsA kwA []).length ∧
      2 ≤ (matchedIndices tsA kwA []).getD 2 0 - (matchedIndices tsA kwA []).getD 1 0 ∧
      segOfSel (matchedIndices tsA kwA []) 2 = segOfSel (matchedIndices tsA kwA []) 1 + 1 :=
  ⟨by decide, by decide,
   (c4_adjacent_merge_gap_split tsA kwA [] 1 (by decide)).2.1 (by decide)⟩

/-! ## Claim C5: segment labels -/

lemma buildSegsWith_label (ts : List Ref) :
    ∀ (rs : List (List Nat)) (cS : Nat) (cD : Str),
      cD = descAt ts ((rs.headD []).headD 0) →
      ∀ j, j + 1 < (buildSegsWith ts cS cD rs).length →
        ((buildSegsWith ts cS cD rs).getD j (0, 0, [])).2.2 =
          descAt ts ((rs.getD j []).headD 0) := by
  intro rs
  induction rs with
  | nil => intro cS cD _ j hj; simp [buildSegsWith] at hj
  | cons r tail ih =>
    intro cS cD hc j hj
    cases tail with
    | nil => simp [buildSegsWith] at hj
    | cons r' rs' =>
      cases j with
      | zero =>
        simpa [buildSegsWith] using hc
      | succ j' =>
        have hj' : j' + 1 < (buildSegsWith ts (offAt ts (r'.headD 0))
            (descAt ts (r'.headD 0)) (r' :: rs')).length := by
          simpa [buildSegsWith] using hj
        have := ih (offAt ts (r'.headD 0)) (descAt ts (r'.headD 0)) (by simp) j' hj'
        simpa [buildSegsWith] using this

/-- Claim C5: every output segment except the last is labelled with the label
of the first selected reference of its run; the last output segment is
labelled with the label of the last selected reference overall. -/
theorem c5_segment_labels (ts : List Ref) (kw ex : List Str) :
    (∀ j, j + 1 < (find_continuous_segments ts kw ex).length →
       ((find_continuous_segments ts kw ex).getD j (0, 0, [])).2.2 =
         descAt ts (((splitRuns (matchedIndices ts kw ex)).getD j []).headD 0)) ∧
    (∀ s : Seg, (find_continuous_segments ts kw ex).getLast? = some s →
       s.2.2 = descAt ts ((matchedIndices ts kw ex).getLastD 0)) := by
  cases h : matchedIndices ts kw ex with
  | nil =>
    unfold find_continuous_segments
    rw [h]
    exact ⟨fun j hj => by simp at hj, fun s hs => by simp at hs⟩
  | cons m0 ms =>
    constructor
    · intro j hj
      rw [find_continuous_segments_eq_build ts kw ex m0 ms h] at hj ⊢
      refine buildSegsWith_label ts (splitRuns (m0 :: ms)) (offAt ts m0) (descAt ts m0) ?_ j hj
      rw [splitRuns_head_head]
    · intro s hs
      obtain ⟨st, hlastq⟩ :=
        segLoop_getLast ts (m0 :: ms) (offAt ts m0) (descAt ts m0) (by simp)
      rw [find_continuous_segments_eq_segLoop ts kw ex m0 ms h, hlastq] at hs
      have hse := Option.some.inj hs
      rw [← hse]

/-- Witness for C5 at scenario A: the interior segment `(70, 300, "asmr
tapping")` is labelled by the first selected reference of its run (index 1),
and the final segment by the last selected reference (index 4). -/
theorem c5_segment_labels_witness :
    0 + 1 < (find_continuous_segments tsA kwA []).length ∧
      ((find_continuous_segments tsA kwA []).getD 0 (0, 0, [])).2.2 =
        descAt tsA (((splitRuns (matchedIndices tsA kwA [])).getD 0 []).headD 0) ∧
      (find_continuous_segments tsA kwA []).getLast? =
        some (600, 660, ("asmr brushing").toList) ∧
      ((600, 660, ("asmr brushing").toList) : Seg).2.2 =
        descAt tsA ((matchedIndices tsA kwA []).getLastD 0) :=
  ⟨by decide, (c5_segment_labels tsA kwA []).1 0 (by decide), by decide,
   (c5_segment_labels tsA kwA []).2 (600, 660, ("asmr brushing").toList) (by decide)⟩

/-! ## Claim C6: ordering of `extract_timestamps` -/

lemma strLeB_total : ∀ (s t : Str), strLeB s t = true ∨ strLeB t s = true := by
  intro s
  induction s with
  | nil => intro t; exact Or.inl rfl
  | cons a s' ih =>
    intro t
    cases t with
    | nil => exact Or.inr rfl
    | cons b t' =>
      by_cases hab : a.toNat < b.toNat
      · exact Or.inl (by simp only [strLeB]; rw [if_pos hab])
      · by_cases hba : b.toNat < a.toNat
        · exact Or.inr (by simp only [strLeB]; rw [if_pos hba])
        · rcases ih t' with h | h
          · exact Or.inl (by simp only [strLeB]; rw [if_neg hab, if_neg hba]; exact h)
          · exact Or.inr (by simp only [strLeB]; rw [if_neg hba, if_neg hab]; exact h)

lemma strLeB_trans : ∀ (s t u : Str),
    strLeB s t = true → strLeB t u = true → strLeB s u = true := by
  intro s
  induction s with
  | nil => intro t u _ _; rfl
  | cons a s' ih =>
    intro t u hst htu
    cases t with
    | nil => simp [strLeB] at hst
    | cons b t' =>
      cases u with
      | nil => simp [strLeB] at htu
      | cons c u' =>
        simp only [strLeB] at hst htu ⊢
        by_cases hab : a.toNat < b.toNat
        · by_cases hbc : b.toNat < c.toNat
          · rw [if_pos (by omega)]
          · by_cases hcb : c.toNat < b.toNat
            · rw [if_neg hbc, if_pos hcb] at htu
              exact absurd htu (by simp)
            · rw [if_pos (by omega)]
        · by_cases hba : b.toNat < a.toNat
          · rw [if_neg hab, if_pos hba] at hst
            exact absurd hst (by simp)
          · rw [if_neg hab, if_neg hba] at hst
            by_cases hbc : b.toNat < c.toNat
            · rw [if_pos (by omega)]
            · by_cases hcb : c.toNat < b.toNat
              · rw [if_neg hbc, if_pos hcb] at htu
                exact absurd htu (by simp)
              · rw [if_neg hbc, if_neg hcb] at htu
                rw [if_neg (by omega), if_neg (by omega)]
                exact ih t' u' hst htu

lemma pairLe_total (x y : Nat × Str) : pairLe x y = true ∨ pairLe y x = true := by
  simp only [pairLe, Bool.or_eq_true, decide_eq_true_eq, Bool.and_eq_true, beq_iff_eq]
  rcases Nat.lt_trichotomy x.1 y.1 with h | h | h
  · exact Or.inl (Or.inl h)
  · rcases strLeB_total x.2 y.2 with h' | h'
    · exact Or.inl (Or.inr ⟨h, h'⟩)
    · exact Or.inr (Or.inr ⟨h.symm, h'⟩)
  · exact Or.inr (Or.inl h)

lemma pairLe_trans (x y z : Nat × Str) :
    pairLe x y = true → pairLe y z = true → pairLe x z = true := by
  simp only [pairLe, Bool.or_eq_true, decide_eq_true_eq, Bool.and_eq_true, beq_iff_eq]
  rintro (h1 | ⟨h1, h1s⟩) (h2 | ⟨h2, h2s⟩)
  · exact Or.inl (by omega)
  · exact Or.inl (by omega)
  · exact Or.inl (by omega)
  · exact Or.inr ⟨by omega, strLeB_trans _ _ _ h1s h2s⟩

lemma mem_insertPair : ∀ (l : List (Nat × Str)) (x z : Nat × Str),
    z ∈ insertPair x l ↔ z = x ∨ z ∈ l := by
  intro l
  induction l with
  | nil => intro x z; simp [insertPair]
  | cons y ys ih =>
    intro x z
    simp only [insertPair]
    by_cases h : pairLe y x = true
    · rw [if_pos h]
      rw [List.mem_cons, ih, List.mem_cons]
      tauto
    · rw [if_neg h]
      rw [List.mem_cons, List.mem_cons]

lemma insertPair_sorted : ∀ (l : List (Nat × Str)) (x : Nat × Str),
    List.Pairwise (fun u v => pairLe u v = true) l →
    List.Pairwise (fun u v => pairLe u v = true) (insertPair x l) := by
  intro l
  induction l with
  | nil => intro x _; simp [insertPair]
  | cons y ys ih =>
    intro x hpw
    simp only [insertPair]
    by_cases h : pairLe y x = true
    · rw [if_pos h]
      refine List.pairwise_cons.mpr ⟨?_, ih x hpw.of_cons⟩
      intro z hz
      rcases (mem_insertPair ys x z).mp hz with rfl | hz'
      · exact h
      · exact List.rel_of_pairwise_cons hpw hz'
    · rw [if_neg h]
      have hxy : pairLe x y = true := by
        rcases pairLe_total x y with h' | h'
        · exact h'
        · exact absurd h' h
      refine List.pairwise_cons.mpr ⟨?_, hpw⟩
      intro z hz
      rcases List.mem_cons.mp hz with rfl | hz'
      · exact hxy
      · exact pairLe_trans x y z hxy (List.rel_of_pairwise_cons hpw hz')

lemma foldl_insertPair_sorted : ∀ (l acc : List (Nat × Str)),
    List.Pairwise (fun u v => pairLe u v = true) acc →
    List.Pairwise (fun u v => pairLe u v = true)
      (List.foldl (fun acc x => insertPair x acc) acc l) := by
  intro l
  induction l with
  | nil => intro acc h; exact h
  | cons x xs ih =>
    intro acc h
    exact ih (insertPair x acc) (insertPair_sorted acc x h)

/-- The comment text with two equal-offset references whose labels are in
descending order, refuting the scan-order part of C6. -/
def sampleText : Str := ("t=10\">0:10</a> b<a t=10\">0:10</a> a").toList

/-- Claim C6, counterexample: in `sampleText` the scan matches the reference
labelled `"b"` before the reference labelled `"a"` (both at offset 10), but
`extract_timestamps` returns them with `"a"` first: `sorted` on Python
`(int, str)` tuples breaks equal-offset ties by the label, not by scan
order. -/
theorem c6_counterexample :
    rawTimestamps [sampleText] = [(10, ("b").toList), (10, ("a").toList)] ∧
      extract_timestamps [sampleText] = [(10, ("a").toList), (10, ("b").toList)] ∧
      extract_timestamps [sampleText] ≠ rawTimestamps [sampleText] := by
  refine ⟨by decide, by decide, by decide⟩

/-- Claim C6, amended: the output of `extract_timestamps` is sorted ascending
by offset, and references with equal offsets are ordered by the tuple order
(label compared lexicographically), not by scan order. -/
theorem c6_extract_timestamps_sorted (comments : List Str) :
    List.Pairwise (fun x y : Nat × Str => x.1 ≤ y.1) (extract_timestamps comments) ∧
      List.Pairwise (fun x y : Nat × Str => pairLe x y = true)
        (extract_timestamps comments) := by
  have h2 : List.Pairwise (fun u v => pairLe u v = true) (extract_timestamps comments) :=
    foldl_insertPair_sorted (rawTimestamps comments) [] List.Pairwise.nil
  refine ⟨h2.imp ?_, h2⟩
  intro a b hab
  simp only [pairLe, Bool.or_eq_true, decide_eq_true_eq, Bool.and_eq_true,
    beq_iff_eq] at hab
  rcases hab with h | ⟨h, _⟩
  · omega
  · omega

/-! ## Claim C7: case handling of the keyword lists -/

lemma charToNatOfNat {n : Nat} (h : n < 55296) : (Char.ofNat n).toNat = n := by
  have hv : n.isValidChar := Or.inl h
  rw [Char.ofNat, dif_pos hv]
  simp [Char.ofNatAux, Char.toNat, UInt32.toNat, BitVec.toNat_ofNatLt]

lemma toLowerToNat (c : Char) :
    c.toLower.toNat = if 65 ≤ c.toNat ∧ c.toNat ≤ 90 then c.toNat + 32 else c.toNat := by
  unfold Char.toLower
  by_cases h : c.toNat ≥ 65 ∧ c.toNat ≤ 90
  · rw [if_pos h, if_pos h]
    exact charToNatOfNat (by omega)
  · rw [if_neg h, if_neg h]

lemma charEqOfToNat {a b : Char} (h : a.toNat = b.toNat) : a = b := by
  apply Char.ext
  have hv : a.val.toNat = b.val.toNat := h
  exact UInt32.ext hv

lemma toLowerToLower (c : Char) : c.toLower.toLower = c.toLower := by
  apply charEqOfToNat
  have h1 := toLowerToNat c
  have h2 := toLowerToNat c.toLower
  rw [h2, h1]
  split_ifs <;> omega

lemma beqCharToNat (a b : Char) : (a == b) = decide (a.toNat = b.toNat) := by
  by_cases h : a = b
  · subst h; simp
  · have hne : a.toNat ≠ b.toNat := fun he => h (charEqOfToNat he)
    simp [h, hne]

lemma isWsChar_toLower (c : Char) : isWsChar c.toLower = isWsChar c := by
  have h := toLowerToNat c
  have e1 : (' ' : Char).toNat = 32 := rfl
  have e2 : ('\t' : Char).toNat = 9 := rfl
  have e3 : ('\n' : Char).toNat = 10 := rfl
  have e4 : ('\r' : Char).toNat = 13 := rfl
  rw [Bool.eq_iff_iff]
  simp only [isWsChar, Bool.or_eq_true, beqCharToNat, decide_eq_true_eq, beq_iff_eq,
    e1, e2, e3, e4, h]
  split_ifs with hc
  · constructor <;> intro hyp <;> omega
  · constructor <;> intro hyp <;> omega

lemma strLower_strLower (s : Str) : strLower (strLower s) = strLower s := by
  unfold strLower
  rw [List.map_map]
  exact List.map_congr_left (fun a _ => toLowerToLower a)

lemma strTrim_strLower (s : Str) : strTrim (strLower s) = strLower (strTrim s) := by
  have hws : (fun c => isWsChar (Char.toLower c)) = isWsChar := by
    funext c
    exact isWsChar_toLower c
  unfold strTrim strLower
  rw [List.dropWhile_map]
  show ((List.map Char.toLower _).reverse.dropWhile isWsChar).reverse = _
  rw [← List.map_reverse, List.dropWhile_map, ← List.map_reverse]
  have hc : (isWsChar ∘ Char.toLower) = isWsChar := by
    funext c
    exact isWsChar_toLower c
  rw [hc]

lemma cleanExclude_map_strLower (ex : List Str) :
    cleanExclude (ex.map strLower) = cleanExclude ex := by
  unfold cleanExclude
  rw [List.map_map]
  refine List.map_congr_left ?_
  intro k _
  show strLower (strTrim (strLower k)) = strLower (strTrim k)
  rw [strTrim_strLower, strLower_strLower]

lemma matchedIndices_exclude_map_strLower (ts : List Ref) (kw ex : List Str) :
    matchedIndices ts kw (ex.map strLower) = matchedIndices ts kw ex := by
  unfold matchedIndices
  rw [cleanExclude_map_strLower]

lemma find_continuous_segments_congr (ts : List Ref) (kw ex1 ex2 : List Str)
    (h : matchedIndices ts kw ex1 = matchedIndices ts kw ex2) :
    find_continuous_segments ts kw ex1 = find_continuous_segments ts kw ex2 := by
  unfold find_continuous_segments
  rw [h]

lemma mem_strLower_lower_fixed {x : Char} {d : Str} (h : x ∈ strLower d) :
    x.toLower = x := by
  unfold strLower at h
  rcases List.mem_map.mp h with ⟨y, _, hy⟩
  rw [← hy]
  exact toLowerToLower y

lemma containsSub_imp_lower_fixed {d k : Str} (h : containsSub (strLower d) k = true) :
    strLower k = k := by
  unfold containsSub at h
  rcases List.any_eq_true.mp h with ⟨t, ht, hpre⟩
  have hsuf : t <:+ strLower d := (List.mem_tails t (strLower d)).mp ht
  have hkpre : k <+: t := List.isPrefixOf_iff_prefix.mp hpre
  have hsub : k.Sublist (strLower d) := hkpre.sublist.trans hsuf.sublist
  have hfix : ∀ x ∈ k, Char.toLower x = x := by
    intro x hx
    exact mem_strLower_lower_fixed (hsub.subset hx)
  unfold strLower
  rw [List.map_congr_left hfix]
  simp

lemma any_filter_of_imp {α : Type} (P f : α → Bool) (l : List α)
    (h : ∀ x ∈ l, f x = true → P x = true) : (l.filter P).any f = l.any f := by
  induction l with
  | nil => rfl
  | cons a t ih =>
    have ih' := ih (fun x hx => h x (List.mem_cons_of_mem a hx))
    by_cases hP : P a = true
    · simp [List.filter_cons, hP, ih']
    · have hf : f a = false := by
        cases hfa : f a with
        | false => rfl
        | true => exact absurd (h a (by simp) hfa) hP
      simp [List.filter_cons, hP, hf, ih']

lemma refSelected_filter_lower_fixed (kw exc : List Str) (r : Ref) :
    refSelected (kw.filter (fun k => strLower k == k)) exc r = refSelected kw exc r := by
  unfold refSelected
  have h := any_filter_of_imp (fun k => strLower k == k)
    (fun k => containsSub (strLower r.2) k) kw ?_
  · show (((kw.filter (fun k => strLower k == k)).any fun k => containsSub (strLower r.2) k)
        && !(exc.any fun k => containsSub (strLower r.2) k)) =
      (((kw.any fun k => containsSub (strLower r.2) k))
        && !(exc.any fun k => containsSub (strLower r.2) k))
    rw [h]
  · intro k _ hk
    rw [beq_iff_eq]
    exact containsSub_imp_lower_fixed hk

lemma matchedIndices_filter_lower_fixed (ts : List Ref) (kw ex : List Str) :
    matchedIndices ts (kw.filter (fun k => strLower k == k)) ex =
      matchedIndices ts kw ex := by
  unfold matchedIndices
  refine List.filter_congr ?_
  intro i _
  exact refSelected_filter_lower_fixed kw (cleanExclude ex) (ts.getD i (0, []))

/-- Claim C7, counterexample: the label `"asmr"` case-folded contains the
include keyword `"ASMR"` up to case, yet the reference is not selected and
`find_continuous_segments` returns no segment, while the lower-case keyword
selects it: include keywords are not normalized to lower case. -/
theorem c7_counterexample :
    containsSub (strLower (("asmr").toList)) (strLower (("ASMR").toList)) = true ∧
      matchedIndices [(0, ("asmr").toList)] [("ASMR").toList] [] = [] ∧
      find_continuous_segments [(0, ("asmr").toList)] [("ASMR").toList] [] = [] ∧
      find_continuous_segments [(0, ("asmr").toList)] [("asmr").toList] [] =
        [(0, 60, ("asmr").toList)] := by
  refine ⟨by decide, by decide, by decide, by decide⟩

/-- Claim C7, amended: only the exclude keyword list is normalized (trimmed
and lower-cased) before matching — supplying exclude keywords in any case is
equivalent to supplying them lower-cased — while include keywords are matched
verbatim against the case-folded label, so include keywords that are not
already lower-case (not fixed by case folding) never select anything and can
be dropped without changing the result. -/
theorem c7_exclude_normalized_include_verbatim (ts : List Ref) (kw ex : List Str) :
    find_continuous_segments ts kw (ex.map strLower) =
      find_continuous_segments ts kw ex ∧
    find_continuous_segments ts (kw.filter (fun k => strLower k == k)) ex =
      find_continuous_segments ts kw ex := by
  constructor
  · exact find_continuous_segments_congr ts kw (ex.map strLower) ex
      (matchedIndices_exclude_map_strLower ts kw ex)
  · unfold find_continuous_segments
    rw [matchedIndices_filter_lower_fixed ts kw ex]

/-! ## Claim C8: `DatabaseManager.add_processed_video`
(src/src/utils/db_manager.py, lines 27-35)

The ledger table `processed_videos` has `video_id` as primary key; the insert
is `INSERT OR IGNORE`, i.e. insert-if-absent, never an error. Rows are
modelled in insertion order; `uploaded_date` and `upload_status` are NULL on
insert. -/

/-- One row of the `processed_videos` table. -/
structure LedgerRow where
  video_id : Str
  title : Str
  compilation_path : Str
  processed_date : Nat
  uploaded_date : Option Nat
  upload_status : Option Str
deriving DecidableEq

/-- `add_processed_video`: `INSERT OR IGNORE` keyed on `video_id`, filling
`processed_date` with the current time and leaving the upload columns NULL. -/
def add_processed_video (db : List LedgerRow) (vid title path : Str) (now : Nat) :
    List LedgerRow :=
  if db.any (fun r => r.video_id == vid) then db
  else db ++ [⟨vid, title, path, now, none, none⟩]

/-- Claim C8: `add_processed_video` is idempotent — starting from a ledger
with no row for `vid`, calling it twice with the same `vid` leaves exactly
one row for that id, the second call is a no-op (returns the ledger
unchanged, no error), and the single row keeps the first call's fields. -/
theorem c8_add_processed_video_idempotent (db : List LedgerRow) (vid t1 p1 : Str)
    (d1 : Nat) (t2 p2 : Str) (d2 : Nat) (h : ∀ r ∈ db, r.video_id ≠ vid) :
    add_processed_video (add_processed_video db vid t1 p1 d1) vid t2 p2 d2 =
      add_processed_video db vid t1 p1 d1 ∧
    (add_processed_video (add_processed_video db vid t1 p1 d1) vid t2 p2 d2).filter
        (fun r => r.video_id == vid) =
      [⟨vid, t1, p1, d1, none, none⟩] := by
  have hany : db.any (fun r => r.video_id == vid) = false := by
    rw [List.any_eq_false]
    intro r hr
    simp only [beq_iff_eq]
    exact h r hr
  have hdb1 : add_processed_video db vid t1 p1 d1 =
      db ++ [⟨vid, t1, p1, d1, none, none⟩] := by
    unfold add_processed_video
    rw [hany]
    simp
  have hany1 : (db ++ [(⟨vid, t1, p1, d1, none, none⟩ : LedgerRow)]).any
      (fun r => r.video_id == vid) = true := by
    rw [List.any_append]
    simp
  have hstep : add_processed_video (add_processed_video db vid t1 p1 d1) vid t2 p2 d2 =
      add_processed_video db vid t1 p1 d1 := by
    rw [hdb1]
    unfold add_processed_video
    rw [hany1]
    simp
  refine ⟨hstep, ?_⟩
  rw [hstep, hdb1, List.filter_append]
  have hfnil : db.filter (fun r => r.video_id == vid) = [] := by
    rw [List.filter_eq_nil_iff]
    intro r hr
    simp only [beq_iff_eq]
    exact h r hr
  rw [hfnil]
  simp

/-- Witness for C8 on an empty ledger. -/
theorem c8_add_processed_video_idempotent_witness :
    (∀ r ∈ ([] : List LedgerRow), r.video_id ≠ ("v1").toList) ∧
    add_processed_video
        (add_processed_video [] (("v1").toList) (("t").toList) (("p").toList) 5)
        (("v1").toList) (("other").toList) (("q").toList) 9 =
      add_processed_video [] (("v1").toList) (("t").toList) (("p").toList) 5 :=
  ⟨by simp,
   (c8_add_processed_video_idempotent [] (("v1").toList) (("t").toList) (("p").toList) 5
     (("other").toList) (("q").toList) 9 (by simp)).1⟩

/-! ## Claim C10: `FileManager.check_existing_files`
(src/src/utils/file_manager.py, lines 21-47)

The filesystem is modelled as an oracle of path existence and directory
listings; the function additionally returns the trace of filesystem
operations it performs, so that "never lists the clip directory" is a
statement about the trace. -/

/-- Filesystem oracle: which paths exist and what a directory listing returns. -/
structure FS where
  pathExists : Str → Bool
  listing : Str → List Str

/-- Filesystem operations performed by `check_existing_files`. -/
inductive FsOp where
  | checkPath : Str → FsOp
  | listDir : Str → FsOp
  | makeDirs : Str → FsOp
deriving DecidableEq

/-- `os.path.join` (POSIX). -/
def pathJoin (a b : Str) : Str := a ++ ('/' :: b)

/-- The `FileManager`: only `base_dir` matters for path derivation. -/
structure FileManager where
  base_dir : Str

/-- `get_video_folder` (line 13). -/
def get_video_folder (fm : FileManager) (vid : Str) : Str := pathJoin fm.base_dir vid

/-- Path of the clips folder, `get_clips_folder` (line 17); the `makedirs`
side effect is recorded in the operation trace at the call site. -/
def get_clips_folder_path (fm : FileManager) (vid : Str) : Str :=
  pathJoin (get_video_folder fm vid) (("parts").toList)

/-- The raw-video container extensions probed, line 27. -/
def videoExts : List Str := [("mp4").toList, ("mkv").toList, ("webm").toList]

/-- `os.path.join(video_dir, f"{video_id}.{ext}")` (line 28). -/
def rawCandidate (fm : FileManager) (vid ext : Str) : Str :=
  pathJoin (get_video_folder fm vid) (vid ++ ('.' :: ext))

/-- The loop of lines 27-31: probe extensions in order, return the first
existing raw path, recording the existence checks. -/
def findRawLoop (fs : FS) (fm : FileManager) (vid : Str) : List Str → Option Str × List FsOp
  | [] => (none, [])
  | ext :: rest =>
    let p := rawCandidate fm vid ext
    if fs.pathExists p then (some p, [FsOp.checkPath p])
    else
      let q := findRawLoop fs fm vid rest
      (q.1, FsOp.checkPath p :: q.2)

/-- Lines 33-47: create the clips folder, check its existence, and (when it
exists) list it and keep files prefixed with the video id and ending in
`.mp4`. -/
def clipsScan (fs : FS) (fm : FileManager) (vid : Str) (ops : List FsOp) :
    (Option Str × List Str) × List FsOp :=
  let cf := get_clips_folder_path fm vid
  let ops2 := ops ++ [FsOp.makeDirs cf, FsOp.checkPath cf]
  if fs.pathExists cf then
    let names := (fs.listing cf).filter
      (fun n => vid.isPrefixOf n && ((".mp4").toList).isSuffixOf n)
    ((none, names.map (fun n => pathJoin cf n)), ops2 ++ [FsOp.listDir cf])
  else ((none, []), ops2)

/-- `check_existing_files` (lines 21-47), returning its result paired with
the trace of filesystem operations performed. -/
def check_existing_files (fs : FS) (fm : FileManager) (vid : Str) :
    (Option Str × List Str) × List FsOp :=
  let vdir := get_video_folder fm vid
  if fs.pathExists vdir then
    match findRawLoop fs fm vid videoExts with
    | (some p, ops) => ((some p, []), FsOp.checkPath vdir :: ops)
    | (none, ops) => clipsScan fs fm vid (FsOp.checkPath vdir :: ops)
  else clipsScan fs fm vid [FsOp.checkPath vdir]

lemma findRawLoop_ops (fs : FS) (fm : FileManager) (vid : Str) :
    ∀ exts : List Str, ∀ op ∈ (findRawLoop fs fm vid exts).2, ∃ p, op = FsOp.checkPath p := by
  intro exts
  induction exts with
  | nil => intro op hop; simp [findRawLoop] at hop
  | cons ext rest ih =>
    intro op hop
    simp only [findRawLoop] at hop
    by_cases h : fs.pathExists (rawCandidate fm vid ext) = true
    · rw [if_pos h] at hop
      simp at hop
      exact ⟨rawCandidate fm vid ext, hop⟩
    · rw [if_neg h] at hop
      simp only [List.mem_cons] at hop
      rcases hop with hop | hop
      · exact ⟨rawCandidate fm vid ext, hop⟩
      · exact ih op hop

lemma findRawLoop_first (fs : FS) (fm : FileManager) (vid : Str) :
    ∀ exts : List Str, (findRawLoop fs fm vid exts).1 =
      (exts.find? (fun e => fs.pathExists (rawCandidate fm vid e))).map
        (rawCandidate fm vid) := by
  intro exts
  induction exts with
  | nil => simp [findRawLoop]
  | cons ext rest ih =>
    simp only [findRawLoop]
    by_cases h : fs.pathExists (rawCandidate fm vid ext) = true
    · have hf : List.find? (fun e => fs.pathExists (rawCandidate fm vid e)) (ext :: rest) =
          some ext := List.find?_cons_of_pos rest h
      rw [if_pos h, hf]
      simp
    · have hf : List.find? (fun e => fs.pathExists (rawCandidate fm vid e)) (ext :: rest) =
          List.find? (fun e => fs.pathExists (rawCandidate fm vid e)) rest :=
        List.find?_cons_of_neg rest (by simp [h])
      rw [if_neg h, hf]
      simpa using ih

/-- Claim C10: when the per-video folder exists and some raw video file with
a known container extension exists, `check_existing_files` returns the first
such raw path (in the extension probe order) together with an empty clip
list, and its operation trace never lists any directory; clip paths can only
be reported when no raw video file is found. -/
theorem c10_raw_short_circuits_clips (fs : FS) (fm : FileManager) (vid : Str)
    (hdir : fs.pathExists (get_video_folder fm vid) = true)
    (hraw : videoExts.any (fun e => fs.pathExists (rawCandidate fm vid e)) = true) :
    (check_existing_files fs fm vid).1.1 =
      (videoExts.find? (fun e => fs.pathExists (rawCandidate fm vid e))).map
        (rawCandidate fm vid) ∧
    (check_existing_files fs fm vid).1.2 = [] ∧
    ∀ p, FsOp.listDir p ∉ (check_existing_files fs fm vid).2 := by
  have hfind : (videoExts.find? (fun e => fs.pathExists (rawCandidate fm vid e))).isSome := by
    rcases List.any_eq_true.mp hraw with ⟨e, he, hpe⟩
    refine List.find?_isSome.mpr ⟨e, he, ?_⟩
    exact hpe
  rcases hsome : videoExts.find? (fun e => fs.pathExists (rawCandidate fm vid e)) with _ | e
  · rw [hsome] at hfind; simp at hfind
  · have hloop := findRawLoop_first fs fm vid videoExts
    rw [hsome] at hloop
    unfold check_existing_files
    simp only [hdir, if_true]
    rcases hfr : findRawLoop fs fm vid videoExts with ⟨o, ops⟩
    rw [hfr] at hloop
    simp only at hloop
    cases o with
    | none => simp at hloop
    | some p =>
      have hp : p = rawCandidate fm vid e := by
        simpa using hloop
      refine ⟨?_, rfl, ?_⟩
      · show some p = _
        exact hloop
      · intro q hq
        have hq2 : FsOp.listDir q ∈
            FsOp.checkPath (get_video_folder fm vid) :: ops := hq
        simp only [List.mem_cons] at hq2
        rcases hq2 with hq2 | hq2
        · exact absurd hq2 (by simp)
        · have hops := findRawLoop_ops fs fm vid videoExts
          rw [hfr] at hops
          rcases hops (FsOp.listDir q) hq2 with ⟨pp, hpp⟩
          exact absurd hpp (by simp)

/-- A concrete filesystem for the C10 witness: the video folder and an `mkv`
raw file exist. -/
def fsW : FS :=
  ⟨fun p => p == ("downloads/v1").toList || p == ("downloads/v1/v1.mkv").toList,
   fun _ => []⟩

/-- The file manager rooted at `downloads`, as in the source default. -/
def fmW : FileManager := ⟨("downloads").toList⟩

/-- Witness for C10: with only the `mkv` raw present, the probe returns it
with no clips and no directory listing. -/
theorem c10_raw_short_circuits_clips_witness :
    fsW.pathExists (get_video_folder fmW (("v1").toList)) = true ∧
    videoExts.any (fun e => fsW.pathExists (rawCandidate fmW (("v1").toList) e)) = true ∧
    (check_existing_files fsW fmW (("v1").toList)).1.2 = [] ∧
    FsOp.listDir (get_clips_folder_path fmW (("v1").toList)) ∉
      (check_existing_files fsW fmW (("v1").toList)).2 :=
  ⟨by decide, by decide,
   (c10_raw_short_circuits_clips fsW fmW (("v1").toList) (by decide) (by decide)).2.1,
   (c10_raw_short_circuits_clips fsW fmW (("v1").toList) (by decide) (by decide)).2.2
     (get_clips_folder_path fmW (("v1").toList))⟩

/-! ## Claim C9: `process_and_upload_video` (src/main.py, lines 86-168)

The collaborators (YouTube client, downloader, processor) are oracles in the
environment; the function returns the trace of acquisition/cleanup events in
program order, together with the video path handed to the processor. The
upload result only affects logging in the source (lines 147-153), so the
clip cleanup of lines 155-161 runs whenever a compilation was produced, and
the raw cleanup of lines 163-165 runs only when `existing_video` was None. -/

/-- Effect events of one orchestrator run. -/
inductive Ev where
  | download
  | removeClip : Str → Ev
  | cleanupRaw : Str → Ev
  | publish : Str → Ev
deriving DecidableEq

/-- Environment of one `process_and_upload_video` call: filesystem state and
pure oracles for the external collaborators. -/
structure OrchEnv where
  fs : FS
  fm : FileManager
  video_id : Str
  alreadyUploaded : Bool
  comments : List Str
  downloadResult : Option Str
  processSegments : Str → List Seg → List Str × Option Str
  keywords : List Str
  exclude : List Str

/-- `process_and_upload_video` (lines 86-168): returns the event trace and
the video path handed to `processor.process_segments` (none when a guard
returned early). -/
def process_and_upload_video (e : OrchEnv) : List Ev × Option Str :=
  if e.alreadyUploaded then ([], none) else
  let existing_video := (check_existing_files e.fs e.fm e.video_id).1.1
  let timestamps := extract_timestamps e.comments
  if timestamps.isEmpty then ([], none) else
  let acquired : Option Str × List Ev :=
    match existing_video with
    | some p => (some p, [])
    | none => (e.downloadResult, [Ev.download])
  match acquired with
  | (none, evs) => (evs, none)
  | (some video_path, evs) =>
    let segments := find_continuous_segments timestamps e.keywords e.exclude
    if segments.isEmpty then (evs, none) else
    let pr := e.processSegments video_path segments
    let ev2 : List Ev :=
      match pr.2 with
      | some cp => Ev.publish cp :: pr.1.map Ev.removeClip
      | none => []
    let ev3 : List Ev :=
      match existing_video with
      | none => [Ev.cleanupRaw video_path]
      | some _ => []
    (evs ++ ev2 ++ ev3, some video_path)

/-- Claim C9: when a raw video file already exists on disk before the run,
the orchestrator never invokes the download collaborator, never calls the
raw-file cleanup (the pre-existing raw file is left on disk), removes only
the clip files reported by the processor, and the path handed to the
processor — when processing gets that far — is exactly the pre-existing raw
path. -/
theorem c9_existing_raw_reused_not_deleted (e : OrchEnv) (raw : Str)
    (hraw : (check_existing_files e.fs e.fm e.video_id).1.1 = some raw) :
    Ev.download ∉ (process_and_upload_video e).1 ∧
    (∀ p, Ev.cleanupRaw p ∉ (process_and_upload_video e).1) ∧
    (∀ p, Ev.removeClip p ∈ (process_and_upload_video e).1 →
      p ∈ (e.processSegments raw
            (find_continuous_segments (extract_timestamps e.comments)
              e.keywords e.exclude)).1) ∧
    ((process_and_upload_video e).2 = none ∨ (process_and_upload_video e).2 = some raw) := by
  unfold process_and_upload_video
  by_cases hup : e.alreadyUploaded = true
  · simp [hup]
  · simp only [Bool.not_eq_true] at hup
    rw [hup]
    simp only [Bool.false_eq_true, if_false, hraw]
    by_cases hts : (extract_timestamps e.comments).isEmpty = true
    · simp [hts]
    · simp only [Bool.not_eq_true] at hts
      rw [hts]
      simp only [Bool.false_eq_true, if_false]
      by_cases hseg : (find_continuous_segments (extract_timestamps e.comments)
          e.keywords e.exclude).isEmpty = true
      · simp [hseg]
      · simp only [Bool.not_eq_true] at hseg
        rw [hseg]
        simp only [Bool.false_eq_true, if_false, List.nil_append]
        refine ⟨?_, ?_, ?_, Or.inr trivial⟩
        · intro hmem
          rcases hev : (e.processSegments raw
              (find_continuous_segments (extract_timestamps e.comments)
                e.keywords e.exclude)).2 with _ | cp
          · rw [hev] at hmem
            simp at hmem
          · rw [hev] at hmem
            simp only [List.append_nil, List.mem_cons] at hmem
            rcases hmem with hmem | hmem
            · exact absurd hmem (by simp)
            · rcases List.mem_map.mp hmem with ⟨x, _, hx⟩
              exact absurd hx (by simp)
        · intro p hmem
          rcases hev : (e.processSegments raw
              (find_continuous_segments (extract_timestamps e.comments)
                e.keywords e.exclude)).2 with _ | cp
          · rw [hev] at hmem
            simp at hmem
          · rw [hev] at hmem
            simp only [List.append_nil, List.mem_cons] at hmem
            rcases hmem with hmem | hmem
            · exact absurd hmem (by simp)
            · rcases List.mem_map.mp hmem with ⟨x, _, hx⟩
              exact absurd hx (by simp)
        · intro p hmem
          rcases hev : (e.processSegments raw
              (find_continuous_segments (extract_timestamps e.comments)
                e.keywords e.exclude)).2 with _ | cp
          · rw [hev] at hmem
            simp at hmem
          · rw [hev] at hmem
            simp only [List.append_nil, List.mem_cons] at hmem
            rcases hmem with hmem | hmem
            · exact absurd hmem (by simp)
            · rcases List.mem_map.mp hmem with ⟨x, hxm, hx⟩
              have : x = p := by
                have := Ev.removeClip.inj hx
                exact this
              rw [← this]
              exact hxm

/-- A concrete environment for the C9 witness: the raw `mkv` file of `fsW`
already exists, one comment carries one matching timestamp, and the
processor reports one clip and a compilation. -/
def envW : OrchEnv :=
  ⟨fsW, fmW, ("v1").toList, false,
   [("t=10\">0:10</a> asmr").toList], none,
   fun _ _ => ([("c1").toList], some (("comp").toList)),
   [("asmr").toList], []⟩

/-- Witness for C9: with a pre-existing raw file, the run performs no
download and no raw cleanup, and hands the existing raw path to the
processor. -/
theorem c9_existing_raw_reused_not_deleted_witness :
    (check_existing_files envW.fs envW.fm envW.video_id).1.1 =
      some (("downloads/v1/v1.mkv").toList) ∧
    Ev.download ∉ (process_and_upload_video envW).1 ∧
    (∀ p, Ev.cleanupRaw p ∉ (process_and_upload_video envW).1) ∧
    ((process_and_upload_video envW).2 = none ∨
      (process_and_upload_video envW).2 = some (("downloads/v1/v1.mkv").toList)) :=
  ⟨by decide,
   (c9_existing_raw_reused_not_deleted envW (("downloads/v1/v1.mkv").toList) (by decide)).1,
   (c9_existing_raw_reused_not_deleted envW (("downloads/v1/v1.mkv").toList) (by decide)).2.1,
   (c9_existing_raw_reused_not_deleted envW (("downloads/v1/v1.mkv").toList) (by decide)).2.2.2⟩
